import Mathlib

/-!
Verification development for the PDF price-import pipeline
(scripts/import_pdf.py).

The Python source is shallowly embedded: pure functions become Lean
functions on `String` / `List Char`; the two hard-coded regular
expressions (PRICE_RE, RANGE_RE) are embedded as deterministic matchers
(neither pattern requires backtracking: after each greedy quantifier the
next required character class is disjoint from the quantified class);
`re.findall` is embedded as a left-to-right non-overlapping scan.
Compiled alias regexes and the free-text window search are opaque
deterministic functions of their string arguments, so they appear as
function parameters; theorems about the orchestrator quantify over them.
Python truthiness of optional strings (None and "" are falsy) is modelled
explicitly.  Unicode case folding of `str.lower` is modelled as ASCII
case folding: characters outside ASCII are erased by the following
character filter either way.  CPython float division in the acceptance
ratio is modelled as exact rational division.
-/

namespace ImportPdf

/-! ## Character classes used by the regular expressions -/

def pyDigit (c : Char) : Bool := decide ('0' ≤ c ∧ c ≤ '9')

def pyLowerAlpha (c : Char) : Bool := decide ('a' ≤ c ∧ c ≤ 'z')

def pySpace (c : Char) : Bool :=
  c = ' ' || c = '\t' || c = '\n' || c = '\r' || c = '\x0b' || c = '\x0c'

/-! ## normalize (source lines 21-29) -/

def dashFix (c : Char) : Char := if c = '–' ∨ c = '—' then '-' else c

def keepAllowed (c : Char) : Char :=
  if pyLowerAlpha c || pyDigit c || c = ' ' then c else ' '

def splitWords (cs : List Char) : List (List Char) :=
  (cs.splitOn ' ').filter (fun w => w ≠ [])

def singleAlpha : List Char → Bool
  | [c] => pyLowerAlpha c
  | _ => false

/-- The substitution of the repair regex: on space-separated words it
merges two adjacent single-letter words, scanning left to right without
overlap (re.sub resumes after each replacement). -/
def repairWords : List (List Char) → List (List Char)
  | [] => []
  | [w] => [w]
  | w1 :: w2 :: rest =>
    if singleAlpha w1 && singleAlpha w2 then (w1 ++ w2) :: repairWords rest
    else w1 :: repairWords (w2 :: rest)

def joinWords : List (List Char) → List Char
  | [] => []
  | [w] => w
  | w :: rest => w ++ ' ' :: joinWords rest

def normalize (s : String) : String :=
  let cs := s.toList.map Char.toLower
  let cs := cs.map dashFix
  let cs := cs.map keepAllowed
  (joinWords (repairWords (splitWords cs))).asString

/-! ## Price token extraction (source lines 17-18, 69-75) -/

/-- Matcher for the shared regex tail `\s*€`: consumed characters and
remainder. -/
def matchEuroTail (cs : List Char) : Option (List Char × List Char) :=
  let sp := cs.takeWhile pySpace
  match cs.dropWhile pySpace with
  | '€' :: r => some (sp ++ ['€'], r)
  | _ => none

/-- Matcher for PRICE_RE at the start of the input.  Returns the matched
characters and the remainder.  The optional group is tried greedily
first, matching re semantics. -/
def matchAmount (cs : List Char) : Option (List Char × List Char) :=
  let d1 := cs.takeWhile pyDigit
  let r1 := cs.dropWhile pyDigit
  if d1 = [] then none
  else
    let grouped : Option (List Char × List Char) :=
      match r1 with
      | c :: r2 =>
        if c = '.' ∨ c = ',' then
          let d2 := r2.takeWhile pyDigit
          let r3 := r2.dropWhile pyDigit
          if d2 = [] then none
          else
            match matchEuroTail r3 with
            | some (m3, r4) => some (d1 ++ c :: (d2 ++ m3), r4)
            | none => none
        else none
      | [] => none
    match grouped with
    | some res => some res
    | none =>
      match matchEuroTail r1 with
      | some (m3, r4) => some (d1 ++ m3, r4)
      | none => none

/-- Matcher for RANGE_RE at the start of the input. -/
def matchRange (cs : List Char) : Option (List Char × List Char) :=
  let d1 := cs.takeWhile pyDigit
  let r1 := cs.dropWhile pyDigit
  if d1 = [] then none
  else
    let sp1 := r1.takeWhile pySpace
    match r1.dropWhile pySpace with
    | c :: r3 =>
      if c = '–' ∨ c = '-' then
        let sp2 := r3.takeWhile pySpace
        let r3b := r3.dropWhile pySpace
        let d2 := r3b.takeWhile pyDigit
        let r4 := r3b.dropWhile pyDigit
        if d2 = [] then none
        else
          match matchEuroTail r4 with
          | some (m3, r6) => some (d1 ++ (sp1 ++ c :: (sp2 ++ (d2 ++ m3))), r6)
          | none => none
      else none
    | [] => none

/-- re.findall: scan left to right; at each position emit the match if
one starts there and resume after it, otherwise advance one character.
Fuel is the input length, enough because every match is nonempty. -/
def findallAux (f : List Char → Option (List Char × List Char)) :
    Nat → List Char → List (List Char)
  | 0, _ => []
  | _, [] => []
  | fuel + 1, c :: cs =>
    match f (c :: cs) with
    | some (m, r) => m :: findallAux f fuel r
    | none => findallAux f fuel cs

def findall (f : List Char → Option (List Char × List Char))
    (cs : List Char) : List (List Char) :=
  findallAux f cs.length cs

def rangeTokens (s : String) : List String :=
  (findall matchRange s.toList).map List.asString

def singleTokens (s : String) : List String :=
  (findall matchAmount s.toList).map List.asString

/-- Body of the single-amount loop: append unless the exact string is
already present. -/
def appendDedup (toks : List String) (m : String) : List String :=
  if m ∈ toks then toks else toks ++ [m]

def find_price_tokens (s : String) : List String :=
  (singleTokens s).foldl appendDedup (rangeTokens s)

example : find_price_tokens "199 € ou 16,58 €/mois" = ["199 €", "16,58 €"] := by decide
example : find_price_tokens "29 – 39 € puis 5,99 €" = ["29 – 39 €", "39 €", "5,99 €"] := by decide
example : normalize "A pple Watch" = "a pple watch" := by decide
example : normalize "t v 4k" = "tv 4k" := by decide
example : normalize "iPad (A16)" = "ipad a16" := by decide

/-! ## Row matching (source lines 125-152)

A compiled alias regex is a deterministic function of the text it is
searched in; alias patterns are therefore embedded as `String → Bool`
predicates, and the process-wide ALIASES table as a function from item
id to a (possibly empty) pattern list, empty meaning no registered
entry (`ALIASES.get(item_id, [])`). -/

abbrev RowPat := String → Bool

/-- `" ".join(row)` -/
def joinRow (row : List String) : String := String.intercalate " " row

/-- Python `needle in hay` on strings: contiguous-substring test. -/
def startsWithL : List Char → List Char → Bool
  | _, [] => true
  | [], _ :: _ => false
  | a :: ha, b :: nb => a == b && startsWithL ha nb

def hasSub (hay needle : List Char) : Bool :=
  startsWithL hay needle ||
    match hay with
    | [] => false
    | _ :: t => hasSub t needle

/-- Inner loop of the alias branch: first row whose normalized join the
pattern matches, returned unnormalized. -/
def firstRowMatch (p : RowPat) : List (List String) → Option String
  | [] => none
  | row :: rest =>
    if p (normalize (joinRow row)) then some (joinRow row)
    else firstRowMatch p rest

/-- Outer loop of the alias branch: patterns in registration order. -/
def aliasLoop : List RowPat → List (List String) → Option String
  | [], _ => none
  | p :: rest, rows =>
    match firstRowMatch p rows with
    | some t => some t
    | none => aliasLoop rest rows

/-- `normalize(product_name).split(" ")` with empty strings removed. -/
def targetWords (name : String) : List (List Char) :=
  ((normalize name).toList.splitOn ' ').filter (fun w => w ≠ [])

/-- `sum(1 for w in target_words if w in row_norm)` -/
def wordScore (tws : List (List Char)) (rowNorm : List Char) : Nat :=
  tws.countP (fun w => hasSub rowNorm w)

/-- Score of one row against a target name, as the generic branch
computes it. -/
def rowScore (name : String) (row : List String) : Nat :=
  wordScore (targetWords name) (normalize (joinRow row)).toList

/-- `max(2, len(target_words) // 2)` -/
def genThreshold (name : String) : Nat :=
  Nat.max 2 ((targetWords name).length / 2)

/-- Loop body of the generic scorer: skip rows with empty normalization,
keep the first row attaining each new strictly larger score. -/
def scoreStep (tws : List (List Char)) (acc : Option String × Nat)
    (row : List String) : Option String × Nat :=
  let rowText := joinRow row
  let rowNorm := normalize rowText
  if rowNorm = "" then acc
  else
    let score := wordScore tws rowNorm.toList
    if acc.2 < score then (some rowText, score) else acc

def chooseRowGeneric (name : String) (rows : List (List String)) : Option String :=
  let tws := targetWords name
  let best := rows.foldl (scoreStep tws) (none, 0)
  if Nat.max 2 (tws.length / 2) ≤ best.2 then best.1 else none

def choose_row (aliases : String → List RowPat) (item_id product_name : String)
    (rows : List (List String)) : Option String :=
  match aliases item_id with
  | [] => chooseRowGeneric product_name rows
  | p :: rest => aliasLoop (p :: rest) rows

/-- Spec-side restatement of the alias branch, following the spec words:
take the earliest pattern that matches any row, and for it the first
matching row in document order; no pattern matching any row yields none. -/
def prioritySearchSpec (ps : List RowPat) (rows : List (List String)) : Option String :=
  match ps.find? (fun p => rows.any (fun row => p (normalize (joinRow row)))) with
  | some p => Option.map joinRow (rows.find? (fun row => p (normalize (joinRow row))))
  | none => none

/-! ## Catalog data model (source lines 174-224, spec section 6) -/

structure AppleCare where
  standardOneTime : Option String
  standardMonthly : Option String
  theftOneTime : Option String
  theftMonthly : Option String
deriving Repr, DecidableEq

structure Item where
  id : String
  name : String
  appleCare : AppleCare
deriving Repr, DecidableEq

structure Category where
  id : String
  items : List Item
deriving Repr, DecidableEq

structure Catalog where
  categories : List Category
deriving Repr, DecidableEq

/-- One entry of the updates list: a dict with id, status and an
optional matched row. -/
structure Update where
  id : String
  status : String
  row : Option String
deriving Repr, DecidableEq

/-! ## update_prices (source lines 174-224)

`search_in_text` applies compiled regexes to the raw text blocks; it is
a deterministic function of (product id, product name, blocks) and is
embedded as an opaque function parameter `search`.  Python truthiness of
the optional row text (None and "" both falsy) is `truthy`. -/

def truthy : Option String → Bool
  | none => false
  | some s => !(s == "")

/-- `expected`: 2 when the existing standardMonthly field is populated,
else 1. -/
def requiredCount (item : Item) : Nat :=
  if item.appleCare.standardMonthly.isSome then 2 else 1

/-- First match attempt: the chosen row, falling back to text search
when the row is falsy and blocks exist; the flag records that the text
search was already used. -/
def firstMatch (aliases : String → List RowPat)
    (search : String → String → List String → Option String)
    (rows : List (List String)) (textBlocks : List String)
    (id name : String) : Option String × Bool :=
  let rt := choose_row aliases id name rows
  if !(truthy rt) && !(textBlocks.isEmpty) then (search id name textBlocks, true)
  else (rt, false)

/-- The matched text and its token list after the retry step: none on
the no-match path, otherwise the final (row text, extracted tokens)
pair the assignment works on. -/
def finalSelection (aliases : String → List RowPat)
    (search : String → String → List String → Option String)
    (rows : List (List String)) (textBlocks : List String)
    (id name : String) (expected : Nat) : Option (String × List String) :=
  let fm := firstMatch aliases search rows textBlocks id name
  let rt := fm.1
  let used := fm.2
  if !(truthy rt) then none
  else
    let rowText := rt.getD ""
    let prices := find_price_tokens rowText
    if prices.length < expected && !used && !(textBlocks.isEmpty) then
      let fb := search id name textBlocks
      if truthy fb then
        let ft := fb.getD ""
        some (ft, find_price_tokens ft)
      else some (rowText, prices)
    else some (rowText, prices)

def processItem (aliases : String → List RowPat)
    (search : String → String → List String → Option String)
    (rows : List (List String)) (textBlocks : List String)
    (item : Item) : Item × Update :=
  let expected := requiredCount item
  match finalSelection aliases search rows textBlocks item.id item.name expected with
  | none => (item, ⟨item.id, "no-match", none⟩)
  | some (rowText, prices) =>
    if prices.length < expected then
      (item, ⟨item.id, "not-enough-prices", some rowText⟩)
    else
      let ac0 := item.appleCare
      let ac1 :=
        if expected = 2 then
          { ac0 with standardOneTime := some (prices.getD 0 ""),
                     standardMonthly := some (prices.getD 1 "") }
        else { ac0 with standardOneTime := some (prices.getD 0 "") }
      let ac2 :=
        if 4 ≤ prices.length then
          { ac1 with theftOneTime := some (prices.getD 2 ""),
                     theftMonthly := some (prices.getD 3 "") }
        else ac1
      ({ item with appleCare := ac2 }, ⟨item.id, "updated", some rowText⟩)

def processItems (aliases : String → List RowPat)
    (search : String → String → List String → Option String)
    (rows : List (List String)) (textBlocks : List String) :
    List Item → List Item × Nat × List Update
  | [] => ([], 0, [])
  | it :: rest =>
    let r := processItem aliases search rows textBlocks it
    let rr := processItems aliases search rows textBlocks rest
    (r.1 :: rr.1, (if r.2.status = "updated" then 1 else 0) + rr.2.1, r.2 :: rr.2.2)

def processCategories (aliases : String → List RowPat)
    (search : String → String → List String → Option String)
    (rows : List (List String)) (textBlocks : List String)
    (categoryIds : List String) :
    List Category → List Category × Nat × Nat × List Update
  | [] => ([], 0, 0, [])
  | c :: rest =>
    let rr := processCategories aliases search rows textBlocks categoryIds rest
    if c.id ∈ categoryIds then
      let ri := processItems aliases search rows textBlocks c.items
      ({ c with items := ri.1 } :: rr.1, ri.2.1 + rr.2.1,
        c.items.length + rr.2.2.1, ri.2.2 ++ rr.2.2.2)
    else (c :: rr.1, rr.2.1, rr.2.2.1, rr.2.2.2)

/-- `update_prices(catalog, rows, text_blocks, category_ids)`: returns
(matched, total, updates) and the catalog after its in-place mutation. -/
def update_prices (aliases : String → List RowPat)
    (search : String → String → List String → Option String)
    (catalog : Catalog) (rows : List (List String)) (textBlocks : List String)
    (categoryIds : List String) : Nat × Nat × List Update × Catalog :=
  let r := processCategories aliases search rows textBlocks categoryIds catalog.categories
  (r.2.1, r.2.2.1, r.2.2.2, ⟨r.1⟩)

/-! ## Acceptance policy of main (source lines 282-306)

The tail of `main` after both passes: the report is written
unconditionally, then the catalog write is guarded by the hard-coded
threshold 1.0 and the force flag.  File writes are modelled as flags,
`sys.exit(2)` as exit code 2 and the fall-through success as exit
code 0; CPython float division is modelled as exact rational
division. -/

structure RunDecision where
  reportWritten : Bool
  catalogWritten : Bool
  exitCode : Nat
deriving Repr, DecidableEq

def acceptRatio (matched total : Nat) : ℚ :=
  if total = 0 then 0 else (matched : ℚ) / (total : ℚ)

def finishRun (matched total : Nat) (force : Bool) : RunDecision :=
  if acceptRatio matched total < 1 ∧ force = false then ⟨true, false, 2⟩
  else ⟨true, true, 0⟩

/-! ## Theorems -/

/-- Shape of the foldl that appends single-amount tokens while skipping
exact-string duplicates: the result extends the initial list by a
duplicate-free selection, in order, of the scanned tokens. -/
theorem foldl_appendDedup (singles : List String) :
    ∀ init : List String, ∃ S : List String,
      singles.foldl appendDedup init = init ++ S ∧ S.Nodup ∧
      (∀ t ∈ S, t ∉ init) ∧ S.Sublist singles ∧
      (∀ t ∈ singles, t ∈ init ∨ t ∈ S) := by
  induction singles with
  | nil =>
    intro init
    exact ⟨[], by simp, List.nodup_nil, by simp, by simp⟩
  | cons m rest ih =>
    intro init
    by_cases hm : m ∈ init
    · have h1 : appendDedup init m = init := by simp [appendDedup, hm]
      obtain ⟨S, hS1, hS2, hS3, hS4, hS5⟩ := ih init
      refine ⟨S, ?_, hS2, hS3, hS4.cons m, ?_⟩
      · simpa [h1] using hS1
      · intro t ht
        rcases List.mem_cons.mp ht with h | h
        · exact Or.inl (h ▸ hm)
        · exact hS5 t h
    · have h1 : appendDedup init m = init ++ [m] := by simp [appendDedup, hm]
      obtain ⟨S, hS1, hS2, hS3, hS4, hS5⟩ := ih (init ++ [m])
      have hmS : m ∉ S := fun hc => hS3 m hc (by simp)
      refine ⟨m :: S, ?_, hS2.cons hmS, ?_, hS4.cons₂ m, ?_⟩
      · simpa [h1, List.append_assoc] using hS1
      · intro t ht
        rcases List.mem_cons.mp ht with h | h
        · exact h ▸ hm
        · intro hti
          exact hS3 t h (by simp [hti])
      · intro t ht
        rcases List.mem_cons.mp ht with h | h
        · exact Or.inr (by simp [h])
        · rcases hS5 t h with hi | hs
          · rcases List.mem_append.mp hi with hi | hi
            · exact Or.inl hi
            · exact Or.inr (by simp at hi; simp [hi])
          · exact Or.inr (List.mem_cons_of_mem m hs)

/-- C3 counterexample: on a text containing the same range twice, the
returned list contains two equal strings, refuting global dedup. -/
theorem find_price_tokens_duplicate_ranges :
    find_price_tokens "1 - 2 € 1 - 2 €" = ["1 - 2 €", "1 - 2 €", "2 €"] ∧
    ¬ (find_price_tokens "1 - 2 € 1 - 2 €").Nodup := by
  constructor
  · decide
  · decide

/-- C3 (amended): the result is the range tokens in scan order followed
by a selection of the single-amount tokens that, in scan order, keeps
exactly those not already present — so the appended single-amount part
is duplicate-free and disjoint from the ranges, but equal range tokens
may both appear. -/
theorem find_price_tokens_shape (s : String) :
    ∃ S : List String, find_price_tokens s = rangeTokens s ++ S ∧ S.Nodup ∧
      (∀ t ∈ S, t ∉ rangeTokens s) ∧ S.Sublist (singleTokens s) ∧
      (∀ t ∈ singleTokens s, t ∈ rangeTokens s ∨ t ∈ S) :=
  foldl_appendDedup (singleTokens s) (rangeTokens s)

/-- Closed instance of the amended C3 statement. -/
theorem find_price_tokens_shape_check :
    ∃ S : List String,
      find_price_tokens "1 - 2 € 1 - 2 €" = rangeTokens "1 - 2 € 1 - 2 €" ++ S ∧
      S.Nodup ∧ (∀ t ∈ S, t ∉ rangeTokens "1 - 2 € 1 - 2 €") ∧
      S.Sublist (singleTokens "1 - 2 € 1 - 2 €") ∧
      (∀ t ∈ singleTokens "1 - 2 € 1 - 2 €",
        t ∈ rangeTokens "1 - 2 € 1 - 2 €" ∨ t ∈ S) :=
  find_price_tokens_shape "1 - 2 € 1 - 2 €"

/-- C4: the repair step does not rejoin "A pple" — the second captured
letter must itself end a word, so only two adjacent single-letter words
merge; normalize "A pple Watch" therefore differs from
normalize "Apple Watch", contradicting the inline comment at source
line 26 and the spec. -/
theorem normalize_split_letter_bug :
    normalize "A pple Watch" = "a pple watch" ∧
    normalize "Apple Watch" = "apple watch" ∧
    normalize "A pple Watch" ≠ normalize "Apple Watch" := by
  refine ⟨by decide, by decide, by decide⟩

/-- C2: the acceptance ratio is matched/total with the zero-total case
guarded to 0; a ratio below the hard-coded threshold 1.0 without the
force flag yields report-written, catalog-not-written, exit code 2,
while meeting the threshold or forcing yields a catalog write. -/
theorem main_acceptance_policy (m t : Nat) (f : Bool) :
    (t = 0 → acceptRatio m t = 0) ∧
    (t ≠ 0 → acceptRatio m t = (m : ℚ) / (t : ℚ)) ∧
    (acceptRatio m t < 1 → f = false →
      finishRun m t f = ⟨true, false, 2⟩) ∧
    ((1 ≤ acceptRatio m t ∨ f = true) → finishRun m t f = ⟨true, true, 0⟩) := by
  refine ⟨?_, ?_, ?_, ?_⟩
  · intro h; simp [acceptRatio, h]
  · intro h; simp [acceptRatio, h]
  · intro h hf; simp [finishRun, h, hf]
  · intro h
    rcases h with h | h
    · have : ¬ acceptRatio m t < 1 := not_lt.mpr h
      simp [finishRun, this]
    · simp [finishRun, h]

/-- Closed instance of C2: 1 matched of 2 without force refuses the
catalog write with exit code 2; 2 of 2 writes it. -/
theorem main_acceptance_policy_check :
    finishRun 1 2 false = ⟨true, false, 2⟩ ∧ finishRun 2 2 false = ⟨true, true, 0⟩ := by
  have h1 := main_acceptance_policy 1 2 false
  have h2 := main_acceptance_policy 2 2 false
  refine ⟨h1.2.2.1 ?_ rfl, h2.2.2.2 (Or.inl ?_)⟩
  · rw [h1.2.1 (by norm_num)]; norm_num
  · rw [h2.2.1 (by norm_num)]; norm_num

theorem firstRowMatch_eq_find (p : RowPat) (rows : List (List String)) :
    firstRowMatch p rows
      = Option.map joinRow (rows.find? (fun row => p (normalize (joinRow row)))) := by
  induction rows with
  | nil => rfl
  | cons row rest ih =>
    by_cases h : p (normalize (joinRow row))
    · simp [firstRowMatch, h, List.find?_cons_of_pos]
    · have hb : p (normalize (joinRow row)) = false := by
        revert h
        cases p (normalize (joinRow row)) <;> simp
      simp [firstRowMatch, hb, List.find?_cons_of_neg, ih]

theorem aliasLoop_eq_spec (ps : List RowPat) (rows : List (List String)) :
    aliasLoop ps rows = prioritySearchSpec ps rows := by
  induction ps with
  | nil => rfl
  | cons p rest ih =>
    cases hm : rows.find? (fun row => p (normalize (joinRow row))) with
    | some row =>
      have hp : p (normalize (joinRow row)) = true := by
        simpa using List.find?_some hm
      have hmem : row ∈ rows := List.mem_of_find?_eq_some hm
      have hany : (fun q : RowPat => rows.any fun row => q (normalize (joinRow row))) p
          = true :=
        List.any_eq_true.mpr ⟨row, hmem, hp⟩
      unfold aliasLoop prioritySearchSpec
      rw [firstRowMatch_eq_find, hm, List.find?_cons_of_pos rest hany]
      simp [hm]
    | none =>
      have hall : ∀ row ∈ rows, ¬ p (normalize (joinRow row)) :=
        fun row hrow => by
          have := List.find?_eq_none.mp hm row hrow
          simpa using this
      have hany : ¬ (fun q : RowPat => rows.any fun row => q (normalize (joinRow row))) p := by
        simp only [Bool.not_eq_true, List.any_eq_false]
        intro row hrow
        simpa using hall row hrow
      unfold aliasLoop prioritySearchSpec
      rw [firstRowMatch_eq_find, hm, List.find?_cons_of_neg rest hany]
      exact ih

/-- C5: with a registered (nonempty) alias pattern list, choose_row
equals the priority search that takes the earliest pattern matching any
row and, for it, the first matching row in document order; when no
pattern matches any row the result is none, with no fallback to the
generic scorer. -/
theorem choose_row_alias_priority (aliases : String → List RowPat)
    (item_id name : String) (rows : List (List String))
    (h : aliases item_id ≠ []) :
    choose_row aliases item_id name rows = prioritySearchSpec (aliases item_id) rows ∧
    ((∀ p ∈ aliases item_id, ∀ row ∈ rows, p (normalize (joinRow row)) = false) →
      choose_row aliases item_id name rows = none) := by
  have h1 : choose_row aliases item_id name rows = prioritySearchSpec (aliases item_id) rows := by
    unfold choose_row
    cases hc : aliases item_id with
    | nil => exact absurd hc h
    | cons p rest => exact aliasLoop_eq_spec (p :: rest) rows
  refine ⟨h1, ?_⟩
  intro hall
  rw [h1]
  unfold prioritySearchSpec
  have hnone : (aliases item_id).find?
      (fun p => rows.any (fun row => p (normalize (joinRow row)))) = none := by
    rw [List.find?_eq_none]
    intro p hp
    simp only [Bool.not_eq_true, List.any_eq_false]
    intro row hrow
    simp [hall p hp row hrow]
  rw [hnone]

/-- Fixed patterns for the C5 witness: the first never matches, the
second matches the normalized row text "b". -/
def aliasesW : String → List RowPat := fun _ => [fun s => s == "zzz", fun s => s == "b"]

/-- Closed instance of C5: the row is selected by the second pattern
because no row matches the first. -/
theorem choose_row_alias_priority_check :
    choose_row aliasesW "watch-x" "n" [["B"]] = some "B" := by
  have h := choose_row_alias_priority aliasesW "watch-x" "n" [["B"]] (by simp [aliasesW])
  rw [h.1]
  decide

theorem targetWords_ne_nil (name : String) : ∀ w ∈ targetWords name, w ≠ [] := by
  intro w hw
  have := List.mem_filter.mp hw
  simpa using this.2

theorem hasSub_nil (w : List Char) (hw : w ≠ []) : hasSub [] w = false := by
  cases w with
  | nil => exact absurd rfl hw
  | cons c cs => simp [hasSub, startsWithL]

theorem wordScore_nil (tws : List (List Char)) (h : ∀ w ∈ tws, w ≠ []) :
    wordScore tws [] = 0 := by
  unfold wordScore
  rw [List.countP_eq_zero]
  intro w hw
  simp [hasSub_nil w (h w hw)]

/-- One scorer-loop step either keeps the accumulator, in which case
the row's score does not exceed it, or moves to this row's text and
strictly larger score. -/
theorem scoreStep_cases (tws : List (List Char)) (htws : ∀ w ∈ tws, w ≠ [])
    (acc : Option String × Nat) (row : List String) :
    (scoreStep tws acc row = acc ∧
      wordScore tws (normalize (joinRow row)).toList ≤ acc.2) ∨
    (scoreStep tws acc row
        = (some (joinRow row), wordScore tws (normalize (joinRow row)).toList) ∧
      acc.2 < wordScore tws (normalize (joinRow row)).toList) := by
  by_cases h0 : normalize (joinRow row) = ""
  · left
    constructor
    · simp only [scoreStep]
      rw [if_pos h0]
    · have ht : (normalize (joinRow row)).toList = [] := by rw [h0]; rfl
      rw [ht, wordScore_nil tws htws]
      exact Nat.zero_le _
  · by_cases h1 : acc.2 < wordScore tws (normalize (joinRow row)).toList
    · right
      refine ⟨?_, h1⟩
      simp only [scoreStep]
      rw [if_neg h0, if_pos h1]
    · left
      refine ⟨?_, Nat.le_of_not_lt h1⟩
      simp only [scoreStep]
      rw [if_neg h0, if_neg h1]

/-- Invariant of the generic-scorer fold: the final score bounds every
row's score and the accumulator's, and the final state is either the
initial one or the text and score of some scanned row. -/
theorem foldl_scoreStep_spec (tws : List (List Char)) (htws : ∀ w ∈ tws, w ≠ []) :
    ∀ (rows : List (List String)) (acc : Option String × Nat),
    (∀ row ∈ rows,
      wordScore tws (normalize (joinRow row)).toList ≤ (rows.foldl (scoreStep tws) acc).2) ∧
    acc.2 ≤ (rows.foldl (scoreStep tws) acc).2 ∧
    (rows.foldl (scoreStep tws) acc = acc ∨
      ∃ row ∈ rows, (rows.foldl (scoreStep tws) acc).1 = some (joinRow row) ∧
        (rows.foldl (scoreStep tws) acc).2 = wordScore tws (normalize (joinRow row)).toList) := by
  intro rows
  induction rows with
  | nil => intro acc; simp
  | cons row rest ih =>
    intro acc
    have hfold : (row :: rest).foldl (scoreStep tws) acc
        = rest.foldl (scoreStep tws) (scoreStep tws acc row) := rfl
    obtain ⟨ih1, ih2, ih3⟩ := ih (scoreStep tws acc row)
    rcases scoreStep_cases tws htws acc row with ⟨hs, hle⟩ | ⟨hs, hlt⟩
    · rw [hs] at ih1 ih2 ih3
      refine ⟨?_, ?_, ?_⟩
      · intro row2 hrow2
        rw [hfold, hs]
        rcases List.mem_cons.mp hrow2 with h | h
        · rw [h]
          exact le_trans hle ih2
        · exact ih1 row2 h
      · rw [hfold, hs]
        exact ih2
      · rw [hfold, hs]
        rcases ih3 with heq | ⟨row2, hrow2, hx, hy⟩
        · exact Or.inl heq
        · exact Or.inr ⟨row2, List.mem_cons_of_mem row hrow2, hx, hy⟩
    · have hs1 : (scoreStep tws acc row).1 = some (joinRow row) := by rw [hs]
      have hs2 : (scoreStep tws acc row).2
          = wordScore tws (normalize (joinRow row)).toList := by rw [hs]
      refine ⟨?_, ?_, ?_⟩
      · intro row2 hrow2
        rw [hfold]
        rcases List.mem_cons.mp hrow2 with h | h
        · rw [h, ← hs2]
          exact ih2
        · exact ih1 row2 h
      · rw [hfold]
        refine le_trans ?_ ih2
        rw [hs2]
        exact Nat.le_of_lt hlt
      · rw [hfold]
        rcases ih3 with heq | ⟨row2, hrow2, hx, hy⟩
        · refine Or.inr ⟨row, List.mem_cons_self row rest, ?_, ?_⟩
          · rw [heq, hs1]
          · rw [heq, hs2]
        · exact Or.inr ⟨row2, List.mem_cons_of_mem row hrow2, hx, hy⟩

/-- C6: without a registered alias entry, choose_row scores each row by
how many words of the normalized display name occur as substrings of
the normalized row text, returns a row attaining the maximal score when
that maximum reaches max(2, half the target word count), and none when
every row scores below that threshold. -/
theorem choose_row_generic_scorer (aliases : String → List RowPat)
    (item_id name : String) (rows : List (List String))
    (h : aliases item_id = []) :
    (∀ r, choose_row aliases item_id name rows = some r →
      ∃ row, row ∈ rows ∧ r = joinRow row ∧
        genThreshold name ≤ rowScore name row ∧
        ∀ row2 ∈ rows, rowScore name row2 ≤ rowScore name row) ∧
    (choose_row aliases item_id name rows = none →
      ∀ row ∈ rows, rowScore name row < genThreshold name) := by
  have hcr : choose_row aliases item_id name rows = chooseRowGeneric name rows := by
    unfold choose_row
    rw [h]
  obtain ⟨h1, h2, h3⟩ :=
    foldl_scoreStep_spec (targetWords name) (targetWords_ne_nil name) rows (none, 0)
  have hgen : chooseRowGeneric name rows =
      if Nat.max 2 ((targetWords name).length / 2)
          ≤ (rows.foldl (scoreStep (targetWords name)) (none, 0)).2 then
        (rows.foldl (scoreStep (targetWords name)) (none, 0)).1
      else none := rfl
  constructor
  · intro r hr
    rw [hcr, hgen] at hr
    split at hr
    · rcases h3 with heq | ⟨row, hrow, hx, hy⟩
      · rw [heq] at hr
        exact absurd hr (by simp)
      · rw [hx] at hr
        refine ⟨row, hrow, (Option.some_inj.mp hr).symm, ?_, ?_⟩
        · rename_i hthr
          unfold genThreshold rowScore
          rw [hy] at hthr
          exact hthr
        · intro row2 hrow2
          unfold rowScore
          have := h1 row2 hrow2
          rw [hy] at this
          exact this
    · exact absurd hr (by simp)
  · intro hnone row hrow
    rw [hcr, hgen] at hnone
    split at hnone
    · rename_i hthr
      exfalso
      rcases h3 with heq | ⟨row2, hrow2, hx, hy⟩
      · rw [heq] at hthr
        simp only [] at hthr
        have h2le : (2 : Nat) ≤ Nat.max 2 ((targetWords name).length / 2) :=
          Nat.le_max_left 2 _
        omega
      · rw [hnone] at hx
        exact Option.noConfusion hx
    · rename_i hthr
      unfold genThreshold rowScore
      have := h1 row hrow
      omega

/-- Empty alias table for the C6 witness. -/
def aliasesE : String → List RowPat := fun _ => []

/-- Closed instance of C6: the scorer selects the row scoring 2 of the
3 target words, meeting the threshold max(2, 1). -/
theorem choose_row_generic_scorer_check :
    ∃ row, row ∈ [["Apple Watch Ultra 249 €", "19,99 €"]] ∧
      ("Apple Watch Ultra 249 € 19,99 €" : String) = joinRow row ∧
      genThreshold "Apple Watch Pro" ≤ rowScore "Apple Watch Pro" row ∧
      ∀ row2 ∈ [["Apple Watch Ultra 249 €", "19,99 €"]],
        rowScore "Apple Watch Pro" row2 ≤ rowScore "Apple Watch Pro" row := by
  have h := choose_row_generic_scorer aliasesE "foo-item" "Apple Watch Pro"
    [["Apple Watch Ultra 249 €", "19,99 €"]] rfl
  exact h.1 "Apple Watch Ultra 249 € 19,99 €" (by decide)

theorem matchEuroTail_append (cs m r : List Char) (h : matchEuroTail cs = some (m, r)) :
    cs = m ++ r := by
  simp only [matchEuroTail] at h
  split at h
  · rename_i r2 heq
    injection h with h
    injection h with h1 h2
    subst h1
    subst h2
    calc cs = cs.takeWhile pySpace ++ cs.dropWhile pySpace :=
          (List.takeWhile_append_dropWhile pySpace cs).symm
      _ = cs.takeWhile pySpace ++ ('€' :: r2) := by rw [heq]
      _ = (cs.takeWhile pySpace ++ ['€']) ++ r2 := by simp
  · exact Option.noConfusion h

theorem matchAmount_append (cs m r : List Char) (h : matchAmount cs = some (m, r)) :
    cs = m ++ r := by
  simp only [matchAmount] at h
  split at h
  · exact Option.noConfusion h
  · split at h
    · rename_i res hg
      injection h with h
      subst h
      split at hg
      · rename_i c r2 heq2
        split at hg
        · split at hg
          · exact Option.noConfusion hg
          · split at hg
            · rename_i m3 r4 he
              injection hg with hg
              injection hg with hg1 hg2
              subst hg1
              subst hg2
              calc cs = cs.takeWhile pyDigit ++ cs.dropWhile pyDigit :=
                    (List.takeWhile_append_dropWhile pyDigit cs).symm
                _ = cs.takeWhile pyDigit ++ (c :: r2) := by rw [heq2]
                _ = cs.takeWhile pyDigit
                      ++ (c :: (r2.takeWhile pyDigit ++ r2.dropWhile pyDigit)) := by
                    rw [List.takeWhile_append_dropWhile]
                _ = cs.takeWhile pyDigit
                      ++ (c :: (r2.takeWhile pyDigit ++ (m3 ++ r4))) := by
                    rw [← matchEuroTail_append _ _ _ he]
                _ = (cs.takeWhile pyDigit ++ c :: (r2.takeWhile pyDigit ++ m3)) ++ r4 := by
                    simp
            · exact Option.noConfusion hg
        · exact Option.noConfusion hg
      · exact Option.noConfusion hg
    · split at h
      · rename_i m3 r4 he
        injection h with h
        injection h with h1 h2
        subst h1
        subst h2
        calc cs = cs.takeWhile pyDigit ++ cs.dropWhile pyDigit :=
              (List.takeWhile_append_dropWhile pyDigit cs).symm
          _ = cs.takeWhile pyDigit ++ (m3 ++ r4) := by
              rw [← matchEuroTail_append _ _ _ he]
          _ = (cs.takeWhile pyDigit ++ m3) ++ r4 := by simp
      · exact Option.noConfusion h

theorem matchRange_append (cs m r : List Char) (h : matchRange cs = some (m, r)) :
    cs = m ++ r := by
  simp only [matchRange] at h
  split at h
  · exact Option.noConfusion h
  · split at h
    · rename_i c r3 heq2
      split at h
      · split at h
        · exact Option.noConfusion h
        · split at h
          · rename_i m3 r6 he
            injection h with h
            injection h with h1 h2
            subst h1
            subst h2
            have he2 : m3 ++ r6 = (r3.dropWhile pySpace).dropWhile pyDigit :=
              (matchEuroTail_append _ _ _ he).symm
            calc cs = cs.takeWhile pyDigit
                    ++ ((cs.dropWhile pyDigit).takeWhile pySpace
                      ++ (cs.dropWhile pyDigit).dropWhile pySpace) := by
                  simp [List.takeWhile_append_dropWhile]
              _ = cs.takeWhile pyDigit
                    ++ ((cs.dropWhile pyDigit).takeWhile pySpace ++ (c :: r3)) := by
                  rw [heq2]
              _ = cs.takeWhile pyDigit
                    ++ ((cs.dropWhile pyDigit).takeWhile pySpace
                      ++ (c :: (r3.takeWhile pySpace
                        ++ ((r3.dropWhile pySpace).takeWhile pyDigit
                          ++ (m3 ++ r6))))) := by
                  rw [he2]
                  simp [List.takeWhile_append_dropWhile]
              _ = (cs.takeWhile pyDigit
                    ++ ((cs.dropWhile pyDigit).takeWhile pySpace
                      ++ c :: (r3.takeWhile pySpace
                        ++ ((r3.dropWhile pySpace).takeWhile pyDigit ++ m3)))) ++ r6 := by
                  simp
          · exact Option.noConfusion h
      · exact Option.noConfusion h
    · exact Option.noConfusion h

/-- Every token emitted by the findall scan is a contiguous substring of
the scanned text. -/
theorem findallAux_sub (f : List Char → Option (List Char × List Char))
    (hf : ∀ cs m r, f cs = some (m, r) → cs = m ++ r) :
    ∀ (fuel : Nat) (cs tok : List Char), tok ∈ findallAux f fuel cs →
      ∃ pre post : List Char, cs = pre ++ (tok ++ post) := by
  intro fuel
  induction fuel with
  | zero =>
    intro cs tok h
    simp [findallAux] at h
  | succ n ih =>
    intro cs tok h
    cases cs with
    | nil => simp [findallAux] at h
    | cons c cs2 =>
      cases hm : f (c :: cs2) with
      | some pr =>
        obtain ⟨m, r⟩ := pr
        rw [findallAux, hm] at h
        rcases List.mem_cons.mp h with h | h
        · subst h
          exact ⟨[], r, by rw [hf _ _ _ hm]; rfl⟩
        · obtain ⟨pre, post, hr⟩ := ih r tok h
          refine ⟨m ++ pre, post, ?_⟩
          rw [hf _ _ _ hm, hr]
          simp
      | none =>
        rw [findallAux, hm] at h
        obtain ⟨pre, post, hr⟩ := ih cs2 tok h
        exact ⟨c :: pre, post, by rw [hr]; rfl⟩

/-- Tokens of find_price_tokens are literal substrings of the input. -/
theorem find_price_tokens_sub (s tok : String) (h : tok ∈ find_price_tokens s) :
    ∃ pre post : List Char, s.toList = pre ++ (tok.toList ++ post) := by
  obtain ⟨S, hS1, _, _, hS4, _⟩ := foldl_appendDedup (singleTokens s) (rangeTokens s)
  unfold find_price_tokens at h
  rw [hS1] at h
  rcases List.mem_append.mp h with h | h
  · unfold rangeTokens findall at h
    obtain ⟨u, hu, hx⟩ := List.mem_map.mp h
    have hsub := findallAux_sub matchRange matchRange_append _ _ u hu
    have ht : tok.toList = u := by rw [← hx]; rfl
    rw [ht]
    exact hsub
  · have h2 : tok ∈ singleTokens s := hS4.subset h
    unfold singleTokens findall at h2
    obtain ⟨u, hu, hx⟩ := List.mem_map.mp h2
    have hsub := findallAux_sub matchAmount matchAmount_append _ _ u hu
    have ht : tok.toList = u := by rw [← hx]; rfl
    rw [ht]
    exact hsub

/-! ### Equations for the three outcomes of processItem -/

theorem processItem_noMatch (aliases : String → List RowPat)
    (search : String → String → List String → Option String)
    (rows : List (List String)) (textBlocks : List String) (it : Item)
    (h : finalSelection aliases search rows textBlocks it.id it.name (requiredCount it)
      = none) :
    processItem aliases search rows textBlocks it = (it, ⟨it.id, "no-match", none⟩) := by
  simp only [processItem, h]

theorem processItem_notEnough (aliases : String → List RowPat)
    (search : String → String → List String → Option String)
    (rows : List (List String)) (textBlocks : List String) (it : Item)
    (rt : String) (ps : List String)
    (h : finalSelection aliases search rows textBlocks it.id it.name (requiredCount it)
      = some (rt, ps))
    (hlt : ps.length < requiredCount it) :
    processItem aliases search rows textBlocks it
      = (it, ⟨it.id, "not-enough-prices", some rt⟩) := by
  simp only [processItem, h]
  rw [if_pos hlt]

theorem processItem_updated (aliases : String → List RowPat)
    (search : String → String → List String → Option String)
    (rows : List (List String)) (textBlocks : List String) (it : Item)
    (rt : String) (ps : List String)
    (h : finalSelection aliases search rows textBlocks it.id it.name (requiredCount it)
      = some (rt, ps))
    (hge : ¬ ps.length < requiredCount it) :
    processItem aliases search rows textBlocks it
      = ({ it with appleCare :=
            if 4 ≤ ps.length then
              { (if requiredCount it = 2 then
                  { it.appleCare with standardOneTime := some (ps.getD 0 ""),
                                      standardMonthly := some (ps.getD 1 "") }
                else
                  { it.appleCare with standardOneTime := some (ps.getD 0 "") }) with
                theftOneTime := some (ps.getD 2 ""),
                theftMonthly := some (ps.getD 3 "") }
            else
              (if requiredCount it = 2 then
                { it.appleCare with standardOneTime := some (ps.getD 0 ""),
                                    standardMonthly := some (ps.getD 1 "") }
              else
                { it.appleCare with standardOneTime := some (ps.getD 0 "") }) },
          ⟨it.id, "updated", some rt⟩) := by
  simp only [processItem, h]
  rw [if_neg hge]

theorem finalSelection_some_tokens (aliases : String → List RowPat)
    (search : String → String → List String → Option String)
    (rows : List (List String)) (textBlocks : List String)
    (id name : String) (expected : Nat) (rt : String) (ps : List String)
    (h : finalSelection aliases search rows textBlocks id name expected
      = some (rt, ps)) :
    ps = find_price_tokens rt := by
  simp only [finalSelection] at h
  split at h
  · exact Option.noConfusion h
  · split at h
    · split at h
      · injection h with h
        injection h with h1 h2
        subst h1
        exact h2.symm
      · injection h with h
        injection h with h1 h2
        subst h1
        exact h2.symm
    · injection h with h
      injection h with h1 h2
      subst h1
      exact h2.symm

/-- C1: the required token count is 2 exactly when the existing
standardMonthly field is populated, else 1; a final token list meeting
the required count yields outcome updated with token 0 written to
standardOneTime and, when the count is 2, token 1 to standardMonthly; a
shorter list yields outcome not-enough-prices with the item left
entirely unchanged. -/
theorem processItem_required_outcome (aliases : String → List RowPat)
    (search : String → String → List String → Option String)
    (rows : List (List String)) (textBlocks : List String) (item : Item)
    (rt : String) (ps : List String)
    (h : finalSelection aliases search rows textBlocks item.id item.name
      (requiredCount item) = some (rt, ps)) :
    requiredCount item = (if item.appleCare.standardMonthly.isSome then 2 else 1) ∧
    ((if item.appleCare.standardMonthly.isSome then 2 else 1) ≤ ps.length →
      (processItem aliases search rows textBlocks item).2.status = "updated" ∧
      (processItem aliases search rows textBlocks item).1.appleCare.standardOneTime
        = some (ps.getD 0 "") ∧
      (item.appleCare.standardMonthly.isSome →
        (processItem aliases search rows textBlocks item).1.appleCare.standardMonthly
          = some (ps.getD 1 ""))) ∧
    (ps.length < (if item.appleCare.standardMonthly.isSome then 2 else 1) →
      (processItem aliases search rows textBlocks item).2.status = "not-enough-prices" ∧
      (processItem aliases search rows textBlocks item).1 = item) := by
  refine ⟨rfl, ?_, ?_⟩
  · intro hge
    have hge2 : requiredCount item ≤ ps.length := by
      unfold requiredCount
      exact hge
    have hnlt : ¬ ps.length < requiredCount item := Nat.not_lt.mpr hge2
    rw [processItem_updated aliases search rows textBlocks item rt ps h hnlt]
    refine ⟨rfl, ?_, ?_⟩
    · by_cases h4 : 4 ≤ ps.length <;>
        by_cases h2 : requiredCount item = 2 <;>
          simp [h4, h2]
    · intro hsome
      have h2 : requiredCount item = 2 := by
        unfold requiredCount
        rw [if_pos hsome]
      by_cases h4 : 4 ≤ ps.length <;> simp [h4, h2]
  · intro hlt
    have hlt2 : ps.length < requiredCount item := by
      unfold requiredCount
      exact hlt
    rw [processItem_notEnough aliases search rows textBlocks item rt ps h hlt2]
    exact ⟨rfl, rfl⟩

/-- Always-matching alias table for witnesses. -/
def aliasesT : String → List RowPat := fun _ => [fun _ => true]

/-- Text search that never matches, for witnesses. -/
def searchN : String → String → List String → Option String := fun _ _ _ => none

def itemW : Item := ⟨"iphone-17", "iPhone 17", ⟨none, some "1 €", none, none⟩⟩

def rowsW : List (List String) := [["199 € ou 16,58 €/mois"]]

/-- Closed instance of C1: a two-token row updates an item whose
standardMonthly is populated, writing both base fields. -/
theorem processItem_required_outcome_check :
    (processItem aliasesT searchN rowsW [] itemW).2.status = "updated" ∧
    (processItem aliasesT searchN rowsW [] itemW).1.appleCare.standardOneTime
      = some "199 €" ∧
    (processItem aliasesT searchN rowsW [] itemW).1.appleCare.standardMonthly
      = some "16,58 €" := by
  have h := processItem_required_outcome aliasesT searchN rowsW [] itemW
    "199 € ou 16,58 €/mois" ["199 €", "16,58 €"] (by decide)
  obtain ⟨-, h2, -⟩ := h
  obtain ⟨ha, hb, hc⟩ := h2 (by decide)
  exact ⟨ha, hb, hc (by decide)⟩

/-- C7: whenever the final token list has at least four tokens, the
outcome is updated and tokens 2 and 3 are written to theftOneTime and
theftMonthly, whatever the required count was. -/
theorem processItem_premium_tokens (aliases : String → List RowPat)
    (search : String → String → List String → Option String)
    (rows : List (List String)) (textBlocks : List String) (item : Item)
    (rt : String) (ps : List String)
    (h : finalSelection aliases search rows textBlocks item.id item.name
      (requiredCount item) = some (rt, ps))
    (h4 : 4 ≤ ps.length) :
    (processItem aliases search rows textBlocks item).2.status = "updated" ∧
    (processItem aliases search rows textBlocks item).1.appleCare.theftOneTime
      = some (ps.getD 2 "") ∧
    (processItem aliases search rows textBlocks item).1.appleCare.theftMonthly
      = some (ps.getD 3 "") := by
  have hle : requiredCount item ≤ 2 := by
    unfold requiredCount
    split <;> omega
  have hnlt : ¬ ps.length < requiredCount item := by omega
  rw [processItem_updated aliases search rows textBlocks item rt ps h hnlt]
  refine ⟨rfl, ?_, ?_⟩ <;>
    by_cases h2 : requiredCount item = 2 <;> simp [h4, h2]

def itemW1 : Item := ⟨"beats-pill", "Beats Pill", ⟨none, none, none, none⟩⟩

def rowsW4 : List (List String) := [["199 € 16,58 € 299 € 24,99 €"]]

/-- Closed instance of C7: four tokens populate the premium-tier fields
even though this item's required count is 1. -/
theorem processItem_premium_tokens_check :
    (processItem aliasesT searchN rowsW4 [] itemW1).2.status = "updated" ∧
    (processItem aliasesT searchN rowsW4 [] itemW1).1.appleCare.theftOneTime
      = some "299 €" ∧
    (processItem aliasesT searchN rowsW4 [] itemW1).1.appleCare.theftMonthly
      = some "24,99 €" := by
  have h := processItem_premium_tokens aliasesT searchN rowsW4 [] itemW1
    "199 € 16,58 € 299 € 24,99 €" ["199 €", "16,58 €", "299 €", "24,99 €"]
    (by decide) (by decide)
  exact ⟨h.1, h.2.1, h.2.2⟩

/-- C8: the final token list is exactly the extractor's output on the
final row text; each price field is either untouched or receives the
token at its fixed index 0 to 3, so at most four tokens are consumed,
in extraction order; and every extracted token is the literal substring
of the scanned text, with no reordering or numeric interpretation. -/
theorem processItem_token_discipline (aliases : String → List RowPat)
    (search : String → String → List String → Option String)
    (rows : List (List String)) (textBlocks : List String) (item : Item) :
    (∀ rt ps,
      finalSelection aliases search rows textBlocks item.id item.name (requiredCount item)
        = some (rt, ps) →
      ps = find_price_tokens rt ∧
      ((processItem aliases search rows textBlocks item).1.appleCare.standardOneTime
          = item.appleCare.standardOneTime ∨
        (processItem aliases search rows textBlocks item).1.appleCare.standardOneTime
          = some (ps.getD 0 "")) ∧
      ((processItem aliases search rows textBlocks item).1.appleCare.standardMonthly
          = item.appleCare.standardMonthly ∨
        (processItem aliases search rows textBlocks item).1.appleCare.standardMonthly
          = some (ps.getD 1 "")) ∧
      ((processItem aliases search rows textBlocks item).1.appleCare.theftOneTime
          = item.appleCare.theftOneTime ∨
        (processItem aliases search rows textBlocks item).1.appleCare.theftOneTime
          = some (ps.getD 2 "")) ∧
      ((processItem aliases search rows textBlocks item).1.appleCare.theftMonthly
          = item.appleCare.theftMonthly ∨
        (processItem aliases search rows textBlocks item).1.appleCare.theftMonthly
          = some (ps.getD 3 ""))) ∧
    (∀ s : String, ∀ tok ∈ find_price_tokens s, ∃ pre post : List Char,
      s.toList = pre ++ (tok.toList ++ post)) := by
  constructor
  · intro rt ps h
    have hps : ps = find_price_tokens rt :=
      finalSelection_some_tokens aliases search rows textBlocks item.id item.name
        (requiredCount item) rt ps h
    by_cases hlt : ps.length < requiredCount item
    · rw [processItem_notEnough aliases search rows textBlocks item rt ps h hlt]
      exact ⟨hps, Or.inl rfl, Or.inl rfl, Or.inl rfl, Or.inl rfl⟩
    · rw [processItem_updated aliases search rows textBlocks item rt ps h hlt]
      refine ⟨hps, ?_, ?_, ?_, ?_⟩ <;>
        by_cases h2 : requiredCount item = 2 <;>
          by_cases h4 : 4 ≤ ps.length <;>
            simp [h2, h4]
  · exact fun s tok h => find_price_tokens_sub s tok h

/-- Closed instance of C8: the two-token list is the extractor output
of the matched row and its first token is a literal substring. -/
theorem processItem_token_discipline_check :
    (["199 €", "16,58 €"] : List String) = find_price_tokens "199 € ou 16,58 €/mois" ∧
    ∃ pre post : List Char,
      ("199 € ou 16,58 €/mois" : String).toList
        = pre ++ (("199 €" : String).toList ++ post) := by
  have h := processItem_token_discipline aliasesT searchN rowsW [] itemW
  refine ⟨(h.1 "199 € ou 16,58 €/mois" ["199 €", "16,58 €"] (by decide)).1, ?_⟩
  exact h.2 "199 € ou 16,58 €/mois" "199 €" (by decide)

/-- Reprocessing an already-processed item reproduces the same item and
the same outcome: the match depends only on id and name, the required
count is preserved by the writes, and rewriting stores equal values. -/
theorem processItem_idem (A : String → List RowPat)
    (S : String → String → List String → Option String)
    (R : List (List String)) (B : List String) (it : Item) :
    processItem A S R B (processItem A S R B it).1 = processItem A S R B it := by
  obtain ⟨iid, iname, f1, f2, f3, f4⟩ := it
  cases hF : finalSelection A S R B iid iname
      (requiredCount (Item.mk iid iname (AppleCare.mk f1 f2 f3 f4))) with
  | none =>
    have h1 := processItem_noMatch A S R B (Item.mk iid iname (AppleCare.mk f1 f2 f3 f4)) hF
    rw [h1]
    exact h1
  | some pair =>
    obtain ⟨rt, ps⟩ := pair
    by_cases hlt : ps.length < requiredCount (Item.mk iid iname (AppleCare.mk f1 f2 f3 f4))
    · have h1 := processItem_notEnough A S R B
        (Item.mk iid iname (AppleCare.mk f1 f2 f3 f4)) rt ps hF hlt
      rw [h1]
      exact h1
    · cases f2 with
      | some v =>
        have hrc : requiredCount (Item.mk iid iname (AppleCare.mk f1 (some v) f3 f4)) = 2 := by
          simp [requiredCount]
        by_cases h4 : 4 ≤ ps.length
        · have h1x : processItem A S R B (Item.mk iid iname (AppleCare.mk f1 (some v) f3 f4))
              = (Item.mk iid iname (AppleCare.mk (some (ps.getD 0 "")) (some (ps.getD 1 ""))
                  (some (ps.getD 2 "")) (some (ps.getD 3 ""))),
                 ⟨iid, "updated", some rt⟩) := by
            rw [processItem_updated A S R B
              (Item.mk iid iname (AppleCare.mk f1 (some v) f3 f4)) rt ps hF hlt]
            simp [hrc, h4]
          rw [h1x]
          have hrc2 : requiredCount (Item.mk iid iname (AppleCare.mk (some (ps.getD 0 ""))
              (some (ps.getD 1 "")) (some (ps.getD 2 "")) (some (ps.getD 3 "")))) = 2 := by
            simp [requiredCount]
          have hF2 : finalSelection A S R B iid iname
              (requiredCount (Item.mk iid iname (AppleCare.mk (some (ps.getD 0 ""))
                (some (ps.getD 1 "")) (some (ps.getD 2 "")) (some (ps.getD 3 "")))))
              = some (rt, ps) := by
            rw [hrc2, ← hrc]
            exact hF
          have hlt2 : ¬ ps.length < requiredCount (Item.mk iid iname
              (AppleCare.mk (some (ps.getD 0 "")) (some (ps.getD 1 ""))
                (some (ps.getD 2 "")) (some (ps.getD 3 "")))) := by
            rw [hrc2, ← hrc]
            exact hlt
          rw [processItem_updated A S R B
            (Item.mk iid iname (AppleCare.mk (some (ps.getD 0 "")) (some (ps.getD 1 ""))
              (some (ps.getD 2 "")) (some (ps.getD 3 "")))) rt ps hF2 hlt2]
          simp [hrc2, h4]
        · have h1x : processItem A S R B (Item.mk iid iname (AppleCare.mk f1 (some v) f3 f4))
              = (Item.mk iid iname (AppleCare.mk (some (ps.getD 0 "")) (some (ps.getD 1 ""))
                  f3 f4),
                 ⟨iid, "updated", some rt⟩) := by
            rw [processItem_updated A S R B
              (Item.mk iid iname (AppleCare.mk f1 (some v) f3 f4)) rt ps hF hlt]
            simp [hrc, h4]
          rw [h1x]
          have hrc2 : requiredCount (Item.mk iid iname (AppleCare.mk (some (ps.getD 0 ""))
              (some (ps.getD 1 "")) f3 f4)) = 2 := by
            simp [requiredCount]
          have hF2 : finalSelection A S R B iid iname
              (requiredCount (Item.mk iid iname (AppleCare.mk (some (ps.getD 0 ""))
                (some (ps.getD 1 "")) f3 f4))) = some (rt, ps) := by
            rw [hrc2, ← hrc]
            exact hF
          have hlt2 : ¬ ps.length < requiredCount (Item.mk iid iname
              (AppleCare.mk (some (ps.getD 0 "")) (some (ps.getD 1 "")) f3 f4)) := by
            rw [hrc2, ← hrc]
            exact hlt
          rw [processItem_updated A S R B
            (Item.mk iid iname (AppleCare.mk (some (ps.getD 0 ""))
              (some (ps.getD 1 "")) f3 f4)) rt ps hF2 hlt2]
          simp [hrc2, h4]
      | none =>
        have hrc : requiredCount (Item.mk iid iname (AppleCare.mk f1 none f3 f4)) = 1 := by
          simp [requiredCount]
        by_cases h4 : 4 ≤ ps.length
        · have h1x : processItem A S R B (Item.mk iid iname (AppleCare.mk f1 none f3 f4))
              = (Item.mk iid iname (AppleCare.mk (some (ps.getD 0 "")) none
                  (some (ps.getD 2 "")) (some (ps.getD 3 ""))),
                 ⟨iid, "updated", some rt⟩) := by
            rw [processItem_updated A S R B
              (Item.mk iid iname (AppleCare.mk f1 none f3 f4)) rt ps hF hlt]
            simp [hrc, h4]
          rw [h1x]
          have hrc2 : requiredCount (Item.mk iid iname (AppleCare.mk (some (ps.getD 0 ""))
              none (some (ps.getD 2 "")) (some (ps.getD 3 "")))) = 1 := by
            simp [requiredCount]
          have hF2 : finalSelection A S R B iid iname
              (requiredCount (Item.mk iid iname (AppleCare.mk (some (ps.getD 0 ""))
                none (some (ps.getD 2 "")) (some (ps.getD 3 ""))))) = some (rt, ps) := by
            rw [hrc2, ← hrc]
            exact hF
          have hlt2 : ¬ ps.length < requiredCount (Item.mk iid iname
              (AppleCare.mk (some (ps.getD 0 "")) none
                (some (ps.getD 2 "")) (some (ps.getD 3 "")))) := by
            rw [hrc2, ← hrc]
            exact hlt
          have hne : requiredCount (Item.mk iid iname
              (AppleCare.mk (some (ps.getD 0 "")) none
                (some (ps.getD 2 "")) (some (ps.getD 3 "")))) ≠ 2 := by
            rw [hrc2]
            decide
          rw [processItem_updated A S R B
            (Item.mk iid iname (AppleCare.mk (some (ps.getD 0 "")) none
              (some (ps.getD 2 "")) (some (ps.getD 3 "")))) rt ps hF2 hlt2]
          rw [if_pos h4, if_neg hne]
        · have h1x : processItem A S R B (Item.mk iid iname (AppleCare.mk f1 none f3 f4))
              = (Item.mk iid iname (AppleCare.mk (some (ps.getD 0 "")) none f3 f4),
                 ⟨iid, "updated", some rt⟩) := by
            rw [processItem_updated A S R B
              (Item.mk iid iname (AppleCare.mk f1 none f3 f4)) rt ps hF hlt]
            simp [hrc, h4]
          rw [h1x]
          have hrc2 : requiredCount (Item.mk iid iname
              (AppleCare.mk (some (ps.getD 0 "")) none f3 f4)) = 1 := by
            simp [requiredCount]
          have hF2 : finalSelection A S R B iid iname
              (requiredCount (Item.mk iid iname
                (AppleCare.mk (some (ps.getD 0 "")) none f3 f4))) = some (rt, ps) := by
            rw [hrc2, ← hrc]
            exact hF
          have hlt2 : ¬ ps.length < requiredCount (Item.mk iid iname
              (AppleCare.mk (some (ps.getD 0 "")) none f3 f4)) := by
            rw [hrc2, ← hrc]
            exact hlt
          have hne : requiredCount (Item.mk iid iname
              (AppleCare.mk (some (ps.getD 0 "")) none f3 f4)) ≠ 2 := by
            rw [hrc2]
            decide
          rw [processItem_updated A S R B
            (Item.mk iid iname (AppleCare.mk (some (ps.getD 0 "")) none f3 f4))
            rt ps hF2 hlt2]
          rw [if_neg h4, if_neg hne]

theorem processItems_idem (A : String → List RowPat)
    (S : String → String → List String → Option String)
    (R : List (List String)) (B : List String) (items : List Item) :
    processItems A S R B (processItems A S R B items).1 = processItems A S R B items := by
  induction items with
  | nil => rfl
  | cons it rest ih =>
    simp only [processItems]
    rw [processItem_idem, ih]

theorem processItems_fst_length (A : String → List RowPat)
    (S : String → String → List String → Option String)
    (R : List (List String)) (B : List String) (items : List Item) :
    (processItems A S R B items).1.length = items.length := by
  induction items with
  | nil => rfl
  | cons it rest ih => simp [processItems, ih]

theorem processCategories_idem (A : String → List RowPat)
    (S : String → String → List String → Option String)
    (R : List (List String)) (B : List String) (ids : List String)
    (cats : List Category) :
    processCategories A S R B ids (processCategories A S R B ids cats).1
      = processCategories A S R B ids cats := by
  induction cats with
  | nil => rfl
  | cons c rest ih =>
    obtain ⟨cid, citems⟩ := c
    by_cases hc : cid ∈ ids
    · have hl : processCategories A S R B ids (Category.mk cid citems :: rest)
          = (Category.mk cid (processItems A S R B citems).1
              :: (processCategories A S R B ids rest).1,
             (processItems A S R B citems).2.1 + (processCategories A S R B ids rest).2.1,
             citems.length + (processCategories A S R B ids rest).2.2.1,
             (processItems A S R B citems).2.2 ++ (processCategories A S R B ids rest).2.2.2) := by
        simp only [processCategories]
        rw [if_pos hc]
      rw [hl]
      simp only [processCategories]
      rw [if_pos hc, processItems_idem, ih, processItems_fst_length]
    · have hl : processCategories A S R B ids (Category.mk cid citems :: rest)
          = (Category.mk cid citems :: (processCategories A S R B ids rest).1,
             (processCategories A S R B ids rest).2.1,
             (processCategories A S R B ids rest).2.2.1,
             (processCategories A S R B ids rest).2.2.2) := by
        simp only [processCategories]
        rw [if_neg hc]
      rw [hl]
      simp only [processCategories]
      rw [if_neg hc, ih]

/-- C9: a second run of update_prices on the already-updated catalog,
with the same rows, blocks and category set, returns the identical
(matched, total, updates) report and leaves the catalog unchanged. -/
theorem update_prices_idempotent (aliases : String → List RowPat)
    (search : String → String → List String → Option String)
    (catalog : Catalog) (rows : List (List String)) (textBlocks : List String)
    (categoryIds : List String) :
    update_prices aliases search
        (update_prices aliases search catalog rows textBlocks categoryIds).2.2.2
        rows textBlocks categoryIds
      = update_prices aliases search catalog rows textBlocks categoryIds := by
  simp only [update_prices]
  rw [processCategories_idem]

theorem processItems_fst_map (A : String → List RowPat)
    (S : String → String → List String → Option String)
    (R : List (List String)) (B : List String) (items : List Item) :
    (processItems A S R B items).1 = items.map (fun it => (processItem A S R B it).1) := by
  induction items with
  | nil => rfl
  | cons it rest ih => simp [processItems, ih]

theorem processCategories_fst_map (A : String → List RowPat)
    (S : String → String → List String → Option String)
    (R : List (List String)) (B : List String) (ids : List String)
    (cats : List Category) :
    (processCategories A S R B ids cats).1
      = cats.map (fun c => if c.id ∈ ids then
          { c with items := c.items.map (fun it => (processItem A S R B it).1) }
        else c) := by
  induction cats with
  | nil => rfl
  | cons c rest ih =>
    by_cases hc : c.id ∈ ids
    · simp only [processCategories]
      rw [if_pos hc]
      simp only [List.map_cons]
      rw [if_pos hc, ih, processItems_fst_map]
    · simp only [processCategories]
      rw [if_neg hc]
      simp only [List.map_cons]
      rw [if_neg hc, ih]

/-- An item whose outcome is not updated is returned unchanged, and in
every case its id and name survive: only the appleCare structure can
change. -/
theorem processItem_frame (A : String → List RowPat)
    (S : String → String → List String → Option String)
    (R : List (List String)) (B : List String) (it : Item) :
    (processItem A S R B it).1.id = it.id ∧
    (processItem A S R B it).1.name = it.name ∧
    ((processItem A S R B it).2.status ≠ "updated" → (processItem A S R B it).1 = it) := by
  cases hF : finalSelection A S R B it.id it.name (requiredCount it) with
  | none =>
    rw [processItem_noMatch A S R B it hF]
    exact ⟨rfl, rfl, fun _ => rfl⟩
  | some pair =>
    obtain ⟨rt, ps⟩ := pair
    by_cases hlt : ps.length < requiredCount it
    · rw [processItem_notEnough A S R B it rt ps hF hlt]
      exact ⟨rfl, rfl, fun _ => rfl⟩
    · rw [processItem_updated A S R B it rt ps hF hlt]
      refine ⟨rfl, rfl, fun hne => absurd rfl hne⟩

/-- C10: update_prices only rewrites the appleCare of updated items in
selected categories: the category list keeps its length, order and ids;
categories outside the selected set are untouched; every item keeps its
id and name; and an item whose outcome is not updated — no-match or
not-enough-prices — is returned unchanged. -/
theorem update_prices_frame (aliases : String → List RowPat)
    (search : String → String → List String → Option String)
    (catalog : Catalog) (rows : List (List String)) (textBlocks : List String)
    (categoryIds : List String) :
    (update_prices aliases search catalog rows textBlocks categoryIds).2.2.2.categories
      = catalog.categories.map (fun c => if c.id ∈ categoryIds then
          { c with items := (c.items.map
              (fun it => (processItem aliases search rows textBlocks it).1)) }
        else c) ∧
    ∀ it : Item,
      (processItem aliases search rows textBlocks it).1.id = it.id ∧
      (processItem aliases search rows textBlocks it).1.name = it.name ∧
      ((processItem aliases search rows textBlocks it).2.status ≠ "updated" →
        (processItem aliases search rows textBlocks it).1 = it) :=
  ⟨processCategories_fst_map aliases search rows textBlocks categoryIds catalog.categories,
   fun it => processItem_frame aliases search rows textBlocks it⟩

def itemZ : Item := ⟨"zzz-item", "Zebra", ⟨some "5 €", none, none, none⟩⟩

/-- Closed instance of C10: a no-match item is returned unchanged and a
trivial catalog maps through the frame equation. -/
theorem update_prices_frame_check :
    (update_prices aliasesE searchN (Catalog.mk [Category.mk "watch" [itemZ]]) [] []
        ["watch"]).2.2.2.categories
      = [Category.mk "watch" [itemZ]].map (fun c => if c.id ∈ ["watch"] then
          { c with items := (c.items.map
              (fun it => (processItem aliasesE searchN [] [] it).1)) }
        else c) ∧
    (processItem aliasesE searchN [] [] itemZ).1 = itemZ := by
  have h := update_prices_frame aliasesE searchN
    (Catalog.mk [Category.mk "watch" [itemZ]]) [] [] ["watch"]
  refine ⟨h.1, ?_⟩
  exact ((h.2 itemZ).2.2) (by decide)

end ImportPdf
